import Mathlib

/-!
Verification of the proguard mapping-file parser and lookup engine.

The development shallowly embeds the two source modules:

* `mapping.rs` — the streaming line grammar (`parse_mapping`,
  `MappingRecord::try_parse`, `MappingRecordIter::next`); lines are modelled
  as `List Char` after UTF-8 decoding, raw buffers as `List UInt8`.
* `parser.rs` — the regex-based lookup engine (`MappingView::find_class`,
  `Class::get_methods`, `MethodInfo`).  The three anchored regexes
  (`CLASS_LINE_RE`, `METHOD_RE`, `FIELD_RE`) match one whole line at a time
  (they are anchored with `(?m)^` and `(?:\r?\n|$)`), so the document is
  modelled as its list of lines and each regex as an explicit total
  line-classification function with the same backtracking semantics.

Machine integers: `usize`/`u32` parsing is modelled on `Nat` with the
explicit bounds `2 ^ 64` / `2 ^ 32` at which Rust's `str::parse` overflows
(64-bit target).  `char::is_numeric` / regex `\d` are modelled as
`Char.isDigit`: the further Unicode numerals they accept are always fed to
`str::parse`, which rejects them exactly like every other non-ASCII-digit
character.
-/

/-- Splits off the part of the list before the first occurrence of `sep`:
`some (before, after)` with the separator removed, or `none` if `sep` does
not occur. -/
def breakAtFirst (sep : Char) : List Char → Option (List Char × List Char)
  | [] => none
  | c :: cs =>
    if c = sep then some ([], cs)
    else (breakAtFirst sep cs).map (fun p => (c :: p.1, p.2))

/-- Rust `str::splitn(n, sep)`: at most `n` pieces, the last piece keeps any
further separators; `""` yields `[""]`, and pieces may be empty. -/
def splitnChar : Nat → Char → List Char → List (List Char)
  | 0, _, _ => []
  | 1, _, s => [s]
  | n + 2, sep, s =>
    match breakAtFirst sep s with
    | none => [s]
    | some (pre, post) => pre :: splitnChar (n + 1) sep post

/-- Rust slice `split` on a single separator element: `n` separators give
`n + 1` pieces, and the empty list gives one empty piece. -/
def sliceSplit (sep : Char) : List Char → List (List Char)
  | [] => [[]]
  | c :: cs =>
    if c = sep then [] :: sliceSplit sep cs
    else
      match sliceSplit sep cs with
      | [] => [[c]]
      | p :: ps => (c :: p) :: ps

/-- Rust `str::rsplitn(2, sep)`: the part after the last separator, and
`some` of the part before it when the separator occurs. -/
def rsplitOnce (sep : Char) (s : List Char) : List Char × Option (List Char) :=
  match breakAtFirst sep s.reverse with
  | none => (s, none)
  | some (p, q) => (p.reverse, some q.reverse)

/-- Rust `str::trim` (the sources only ever trim ASCII whitespace). -/
def trimChars (s : List Char) : List Char :=
  ((s.dropWhile Char.isWhitespace).reverse.dropWhile Char.isWhitespace).reverse

/-- Value of a list of ASCII digits. -/
def digitsVal (s : List Char) : Nat :=
  s.foldl (fun a c => a * 10 + (c.toNat - 48)) 0

/-- Rust `str::parse` for an unsigned integer type whose values are
`< bound`: an optional leading `+`, then one or more ASCII digits, and an
overflow check. -/
def parseIntRust (bound : Nat) (s : List Char) : Option Nat :=
  let t := match s with
    | '+' :: r => r
    | _ => s
  if t = [] then none
  else if t.all Char.isDigit then
    if digitsVal t < bound then some (digitsVal t) else none
  else none

/-- Rust `str::parse::<usize>` on a 64-bit target. -/
def parseUsize (s : List Char) : Option Nat := parseIntRust (2 ^ 64) s

/-- Rust `str::parse::<u32>`. -/
def parseU32 (s : List Char) : Option Nat := parseIntRust (2 ^ 32) s

/-- Strict UTF-8 decoding of a byte sequence, as `std::str::from_utf8`:
rejects overlong forms, surrogates and code points above `U+10FFFF`. -/
def utf8Decode? : List UInt8 → Option (List Char)
  | [] => some []
  | b1 :: t1 =>
    if b1 ≤ 0x7F then
      (utf8Decode? t1).map (fun cs => Char.ofNat b1.toNat :: cs)
    else if 0xC2 ≤ b1 ∧ b1 ≤ 0xDF then
      match t1 with
      | b2 :: t2 =>
        if 0x80 ≤ b2 ∧ b2 ≤ 0xBF then
          (utf8Decode? t2).map
            (fun cs => Char.ofNat ((b1.toNat - 0xC0) * 0x40 + (b2.toNat - 0x80)) :: cs)
        else none
      | _ => none
    else if 0xE0 ≤ b1 ∧ b1 ≤ 0xEF then
      match t1 with
      | b2 :: b3 :: t3 =>
        if (if b1 = 0xE0 then 0xA0 ≤ b2 ∧ b2 ≤ 0xBF
            else if b1 = 0xED then 0x80 ≤ b2 ∧ b2 ≤ 0x9F
            else 0x80 ≤ b2 ∧ b2 ≤ 0xBF) ∧ 0x80 ≤ b3 ∧ b3 ≤ 0xBF then
          (utf8Decode? t3).map
            (fun cs => Char.ofNat ((b1.toNat - 0xE0) * 0x1000 +
              (b2.toNat - 0x80) * 0x40 + (b3.toNat - 0x80)) :: cs)
        else none
      | _ => none
    else if 0xF0 ≤ b1 ∧ b1 ≤ 0xF4 then
      match t1 with
      | b2 :: b3 :: b4 :: t4 =>
        if (if b1 = 0xF0 then 0x90 ≤ b2 ∧ b2 ≤ 0xBF
            else if b1 = 0xF4 then 0x80 ≤ b2 ∧ b2 ≤ 0x8F
            else 0x80 ≤ b2 ∧ b2 ≤ 0xBF) ∧
            0x80 ≤ b3 ∧ b3 ≤ 0xBF ∧ 0x80 ≤ b4 ∧ b4 ≤ 0xBF then
          (utf8Decode? t4).map
            (fun cs => Char.ofNat ((b1.toNat - 0xF0) * 0x40000 +
              (b2.toNat - 0x80) * 0x1000 + (b3.toNat - 0x80) * 0x40 +
              (b4.toNat - 0x80)) :: cs)
        else none
      | _ => none
    else none

/-! ## The line grammar of `mapping.rs` -/

/-- `LineMapping` of `mapping.rs`: obfuscated-side start/end lines and the
optional original-side range. -/
structure LineMapping where
  startline : Nat
  endline : Nat
  original_startline : Option Nat
  original_endline : Option Nat
deriving DecidableEq

/-- `MappingRecord` of `mapping.rs`. -/
inductive MappingRecord where
  | Header (key : List Char) (value : Option (List Char))
  | Class (original obfuscated : List Char)
  | Field (ty original obfuscated : List Char)
  | Method (ty original obfuscated arguments : List Char)
      (original_class : Option (List Char)) (line_mapping : Option LineMapping)
deriving DecidableEq

/-- Header branch of `parse_mapping`: content after `#` split once on `:`,
both sides trimmed. -/
def parseHeader (line : List Char) : Option MappingRecord :=
  match splitnChar 2 ':' (line.drop 1) with
  | [k] => some (MappingRecord.Header (trimChars k) none)
  | [k, v] => some (MappingRecord.Header (trimChars k) (some (trimChars v)))
  | _ => none

/-- Class branch of `parse_mapping`: `splitn(3, ' ')`, the second token must
be `->`, the whole line must end in `:`, and the obfuscated name is the
third token with that final `:` removed. -/
def parseClass (line : List Char) : Option MappingRecord :=
  match splitnChar 3 ' ' line with
  | [original, arrow, obf] =>
    if arrow = ['-', '>'] ∧ line.getLast? = some ':' then
      some (MappingRecord.Class original obf.dropLast)
    else none
  | _ => none

/-- True when the first character is numeric (`line.starts_with(char::is_numeric)`). -/
def startsDigit (s : List Char) : Bool :=
  match s with
  | [] => false
  | c :: _ => c.isDigit

/-- Leading `startline:endline:` parse of a member line: `some (none, s)`
when the line does not start with a digit, `some (some (S, E), rest)` when
the `splitn(3, ':')` prefix parses, `none` when the line starts with a digit
but the prefix fails to parse (the whole line is then unparsable). -/
def leadingLineRange (s : List Char) : Option (Option (Nat × Nat) × List Char) :=
  if startsDigit s then
    match splitnChar 3 ':' s with
    | [n1, n2, r] =>
      match parseUsize n1, parseUsize n2 with
      | some st, some en => some (some (st, en), r)
      | _, _ => none
    | _ => none
  else some (none, s)

/-- Splits the trailing `:original_startline[:original_endline]` suffix off
the name token (`splitn(3, ':')`), parsing any numeric pieces. -/
def trailingLines (orig0 : List Char) : Option (List Char × Option Nat × Option Nat) :=
  match splitnChar 3 ':' orig0 with
  | [o] => some (o, none, none)
  | [o, n1] =>
    match parseUsize n1 with
    | some a => some (o, some a, none)
    | none => none
  | [o, n1, n2] =>
    match parseUsize n1, parseUsize n2 with
    | some a, some b => some (o, some a, some b)
    | _, _ => none
  | _ => none

/-- Member branch of `parse_mapping`, applied to the line with its 4-space
indent already removed (the `match ... | none => none` cascades model the
`?` operators of the source). -/
def parseMember (s : List Char) : Option MappingRecord :=
  match leadingLineRange s with
  | none => none
  | some (pre, s1) =>
    match splitnChar 4 ' ' s1 with
    | [ty, orig0, arrow, obf] =>
      if arrow = ['-', '>'] then
        match trailingLines orig0 with
        | none => none
        | some (original1, osl, oel) =>
          match splitnChar 2 '(' original1 with
          | [o] => some (MappingRecord.Field ty o obf)
          | [o, argsPart] =>
            if argsPart.getLast? = some ')' then
              some (MappingRecord.Method ty (rsplitOnce '.' o).1 obf
                argsPart.dropLast (rsplitOnce '.' o).2
                (if 0 < (pre.map Prod.fst).getD 0 then
                  some ⟨(pre.map Prod.fst).getD 0, (pre.map Prod.snd).getD 0,
                    osl, oel⟩
                else none))
            else none
          | _ => none
      else none
    | _ => none

/-- `parse_mapping` of `mapping.rs`: header lines start with `#`, member
lines with four spaces, and everything else is a candidate class line. -/
def parse_mapping (line : List Char) : Option MappingRecord :=
  if line.head? = some '#' then parseHeader line
  else if line.take 4 = [' ', ' ', ' ', ' '] then parseMember (line.drop 4)
  else parseClass line

/-- `MappingRecord::try_parse`: UTF-8 decode, then `parse_mapping`. -/
def try_parse (bytes : List UInt8) : Option MappingRecord :=
  match utf8Decode? bytes with
  | none => none
  | some cs => parse_mapping cs

/-- The item yielded by the record stream for one non-empty line:
`Ok(record)` or `Err(original line bytes)`. -/
def recordOrLine (line : List UInt8) : Except (List UInt8) MappingRecord :=
  match try_parse line with
  | some m => Except.ok m
  | none => Except.error line

/-- The inner `split` helper of `MappingRecordIter::next`: the part of the
slice before the first `\n`/`\r`, and the rest of the slice starting AT that
terminator byte (`&slice[i..]`), or `(slice, [])` when no terminator
occurs. -/
def iterSplit : List UInt8 → List UInt8 × List UInt8
  | [] => ([], [])
  | c :: rest =>
    if c = 10 ∨ c = 13 then ([], c :: rest)
    else ((iterSplit rest).1.cons c, (iterSplit rest).2)

/-- Fuel-indexed run of the `loop` in `MappingRecordIter::next` from a given
slice state: `none` when the loop has not exited within `fuel` iterations,
`some (outcome, state)` when it exits, where `outcome = none` models the
iterator returning `None` and `outcome = some item` a yielded item. -/
def iterNext : Nat → List UInt8 →
    Option (Option (Except (List UInt8) MappingRecord) × List UInt8)
  | 0, _ => none
  | fuel + 1, slice =>
    let line := (iterSplit slice).1
    let rest := (iterSplit slice).2
    if rest = [] then some (none, rest)
    else if line ≠ [] then some (some (recordOrLine line), rest)
    else iterNext fuel rest

/-! ## The lookup engine of `parser.rs`

`parser.rs` classifies lines with three anchored regexes.  Each is compiled
with `(?m)` and shaped `^ ... (?:\r?\n|$)`, so a match is exactly one whole
line of the document (a line being a maximal `\n`-free segment, with one
trailing `\r` belonging to the terminator when a `\n` follows).  The
functions below reproduce the regex semantics on a single line: greedy
classes (`[\S]+`, `[^ ]+`, `\d+`) take the maximal run and the following
literal is then forced; lazy classes (`[^\(]+?`, `[^\)]*?`, `[\S]+?`) stop
at the first occurrence of the closing literal, which the character class
cannot skip; and the one genuinely optional piece, the leading
`(?:(\d+):(\d+):)?` group of `METHOD_RE`, is tried first and dropped when
the rest of the line cannot match after it. -/

/-- Complement of regex `\s` restricted to the characters the format can
contain (`Char.isWhitespace` covers space, tab, CR and LF). -/
def nonWS (c : Char) : Bool := !c.isWhitespace

/-- One line against `CLASS_LINE_RE` `^([\S]+) -> ([\S]+?):(?:\r?\n|$)`:
`some (class_name, alias)` on a match. -/
def classCaps (l : List Char) : Option (List Char × List Char) :=
  let g1 := l.takeWhile nonWS
  if g1 = [] then none
  else
    match l.dropWhile nonWS with
    | ' ' :: '-' :: '>' :: ' ' :: rest2 =>
      if rest2.getLast? = some ':' then
        let g2 := rest2.dropLast
        if g2 ≠ [] ∧ g2.all nonWS then some (g1, g2) else none
      else none
    | _ => none

/-- A line shaped like a class declaration (any alias). -/
def isClassShaped (l : List Char) : Bool := (classCaps l).isSome

/-- A class-declaration line whose obfuscated alias is `a`. -/
def isClassAlias (l a : List Char) : Bool :=
  match classCaps l with
  | some p => p.2 = a
  | none => false

/-- Capture groups of `METHOD_RE` for one line. -/
structure MethodCaps where
  fromStr : Option (List Char)
  toStr : Option (List Char)
  retType : List Char
  name : List Char
  argsRaw : List Char
  aliasName : List Char
deriving DecidableEq

/-- The part of `METHOD_RE` after the optional line-range group:
`([^ ]+) ([^\(]+?)\(([^\)]*?)\) -> ([\S]+)` anchored to the end of the
line; yields groups 3–6. -/
def methodCore (s : List Char) :
    Option (List Char × List Char × List Char × List Char) :=
  let g3 := s.takeWhile (fun c => c ≠ ' ')
  if g3 = [] then none
  else
    match s.dropWhile (fun c => c ≠ ' ') with
    | ' ' :: r =>
      match breakAtFirst '(' r with
      | some (g4, r2) =>
        if g4 = [] then none
        else
          match breakAtFirst ')' r2 with
          | some (g5, r3) =>
            match r3 with
            | ' ' :: '-' :: '>' :: ' ' :: g6 =>
              if g6 ≠ [] ∧ g6.all nonWS then some (g3, g4, g5, g6) else none
            | _ => none
          | none => none
      | none => none
    | _ => none

/-- `METHOD_RE` with the leading `(\d+):(\d+):` group present. -/
def methodWithRange (s : List Char) : Option MethodCaps :=
  let d1 := s.takeWhile Char.isDigit
  if d1 = [] then none
  else
    match s.dropWhile Char.isDigit with
    | ':' :: r1 =>
      let d2 := r1.takeWhile Char.isDigit
      if d2 = [] then none
      else
        match r1.dropWhile Char.isDigit with
        | ':' :: r2 =>
          (methodCore r2).map (fun g => ⟨some d1, some d2, g.1, g.2.1, g.2.2.1, g.2.2.2⟩)
        | _ => none
    | _ => none

/-- One line against `METHOD_RE`
`^    (?:(\d+):(\d+):)?([^ ]+) ([^\(]+?)\(([^\)]*?)\) -> ([\S]+)(?:\r?\n|$)`.
The greedy optional group is preferred; when the remainder cannot match
after it the engine retries with the group skipped. -/
def methodCaps (l : List Char) : Option MethodCaps :=
  if l.take 4 = [' ', ' ', ' ', ' '] then
    let s := l.drop 4
    match methodWithRange s with
    | some c => some c
    | none => (methodCore s).map (fun g => ⟨none, none, g.1, g.2.1, g.2.2.1, g.2.2.2⟩)
  else none

/-- One line against `FIELD_RE` `^    ([\S]+) ([\S]+?) -> ([\S]+)(?:\r?\n|$)`:
`some (ty, name, alias)` on a match. -/
def fieldCaps (l : List Char) : Option (List Char × List Char × List Char) :=
  if l.take 4 = [' ', ' ', ' ', ' '] then
    let s := l.drop 4
    let g1 := s.takeWhile nonWS
    if g1 = [] then none
    else
      match s.dropWhile nonWS with
      | ' ' :: r =>
        match breakAtFirst ' ' r with
        | some (g2, r2) =>
          if g2 ≠ [] ∧ g2.all nonWS then
            match r2 with
            | '-' :: '>' :: ' ' :: g3 =>
              if g3 ≠ [] ∧ g3.all nonWS then some (g1, g2, g3) else none
            | _ => none
          else none
        | none => none
      | _ => none
  else none

/-- `MethodInfo` of `parser.rs`. -/
structure MethodInfo where
  aliasName : List Char
  return_value : List Char
  args : List (List Char)
  method_name : List Char
  lineno_range : Option (Nat × Nat)
deriving DecidableEq

/-- `caps.get(i).and_then(|x| x.parse::<u32>().ok()).unwrap_or(0)`. -/
def parseU32orZero (o : Option (List Char)) : Nat :=
  match o with
  | none => 0
  | some s => (parseU32 s).getD 0

/-- Builds the `MethodInfo` that `Class::get_methods` pushes for one
`METHOD_RE` match: the raw arguments are slice-split on `,` and the line
range is materialized only when both parsed endpoints are positive. -/
def mkMethodInfo (c : MethodCaps) : MethodInfo :=
  { aliasName := c.aliasName
    return_value := c.retType
    args := sliceSplit ',' c.argsRaw
    method_name := c.name
    lineno_range :=
      if 0 < parseU32orZero c.fromStr ∧ 0 < parseU32orZero c.toStr then
        some (parseU32orZero c.fromStr, parseU32orZero c.toStr)
      else none }

/-- The `MethodInfo` a body line contributes, when it matches `METHOD_RE`. -/
def methodInfoOfLine (l : List Char) : Option MethodInfo :=
  (methodCaps l).map mkMethodInfo

/-- `MethodInfo::first_line`: start of the range, `0` if unknown. -/
def first_line (m : MethodInfo) : Nat :=
  (m.lineno_range.map Prod.fst).getD 0

/-- `MethodInfo::last_line`: the source reads `x.0` here as well, so this is
again the START of the range (`0` if unknown). -/
def last_line (m : MethodInfo) : Nat :=
  (m.lineno_range.map Prod.fst).getD 0

/-- `MethodInfo::line_diff`: absolute difference (in `i64`) between
`min(first_line, last_line)` and the queried line, `0` when absent. -/
def line_diff (m : MethodInfo) (lineno : Option Nat) : Nat :=
  (min (first_line m : Int) (last_line m : Int) - ((lineno.getD 0 : Nat) : Int)).natAbs

/-- `MethodInfo::matches_line`. -/
def matches_line (m : MethodInfo) (lineno : Option Nat) : Bool :=
  let l := lineno.getD 0
  match m.lineno_range with
  | some (first, last) => l == 0 || (decide (first ≤ l) && decide (l ≤ last)) || last == 0
  | none => true

/-- Stable insertion of `x` into `l`: `x` goes in front of the first element
whose key is not smaller. -/
def insertByKey (key : α → Nat) (x : α) : List α → List α
  | [] => [x]
  | y :: ys => if key x ≤ key y then x :: y :: ys else y :: insertByKey key x ys

/-- Stable sort by a `Nat` key.  `Vec::sort_by_key` is a stable sort, and a
stable sort's output is determined by the key order alone, so insertion
sort reproduces it exactly. -/
def sortByKey (key : α → Nat) : List α → List α
  | [] => []
  | x :: xs => insertByKey key x (sortByKey key xs)

/-- The `METHOD_RE` matches of a class body whose alias equals the query,
in document order (the scan loop of `Class::get_methods` before the line
filter). -/
def aliasCandidates (body : List (List Char)) (aliasName : List Char) : List MethodInfo :=
  (body.filterMap methodInfoOfLine).filter (fun m => decide (m.aliasName = aliasName))

/-- The candidates `Class::get_methods` keeps: those passing
`matches_line`. -/
def keptMethods (body : List (List Char)) (aliasName : List Char)
    (lineno : Option Nat) : List MethodInfo :=
  (aliasCandidates body aliasName).filter (fun m => matches_line m lineno)

/-- `Class` of `parser.rs`: the obfuscated alias, the original name, and the
body span (modelled as the list of lines between this declaration and the
next class-shaped line). -/
structure ClassView where
  aliasName : List Char
  class_name : List Char
  buf : List (List Char)
deriving DecidableEq

/-- `Class::get_methods`: filter by alias and queried line, then stable-sort
by `line_diff`. -/
def get_methods (cls : ClassView) (aliasName : List Char) (lineno : Option Nat) :
    List MethodInfo :=
  sortByKey (fun m => line_diff m lineno) (keptMethods cls.buf aliasName lineno)

/-- `Class::get_field`: first `FIELD_RE` match in the body whose alias
equals the query. -/
def get_field (cls : ClassView) (aliasName : List Char) :
    Option (List Char × List Char × List Char) :=
  (cls.buf.filterMap fieldCaps).find? (fun p => decide (p.2.2 = aliasName))

/-- `MappingView::find_class` over the document's lines: scan class-shaped
lines in order, return the first whose alias matches; its body runs until
the next class-shaped line (member lines never terminate it). -/
def findClassL : List (List Char) → List Char → Option ClassView
  | [], _ => none
  | l :: rest, a =>
    match classCaps l with
    | some p =>
      if p.2 = a then
        some ⟨a, p.1, rest.takeWhile (fun x => !isClassShaped x)⟩
      else findClassL rest a
    | none => findClassL rest a

/-- Strips one trailing `\r` (the `\r?` of the line terminator). -/
def stripCR (l : List Char) : List Char :=
  if l.getLast? = some '\r' then l.dropLast else l

/-- A trailing `\r` belongs to the terminator only when a `\n` follows, so
it is stripped from every `\n`-separated piece except the last. -/
def stripLines : List (List Char) → List (List Char)
  | [] => []
  | [l] => [l]
  | l :: ls => stripCR l :: stripLines ls

/-- The document as the list of lines the `(?m)^`-anchored regexes can
match. -/
def toLines (doc : List Char) : List (List Char) :=
  stripLines (sliceSplit '\n' doc)

/-- `MappingView::find_class` on a document. -/
def find_class (doc : List Char) (aliasName : List Char) : Option ClassView :=
  findClassL (toLines doc) aliasName

/-- The second space-separated token of a member line after the optional
leading line range — the "name token" of the grammar, still carrying any
trailing `:n[:n]` suffix. -/
def memberNameToken (line : List Char) : Option (List Char) :=
  match leadingLineRange (line.drop 4) with
  | none => none
  | some (_, s1) =>
    match splitnChar 4 ' ' s1 with
    | _ :: t :: _ => some t
    | _ => none

/-- Line mapping of a parsed method record, `none` otherwise. -/
def recordLineMapping (r : Option MappingRecord) : Option LineMapping :=
  match r with
  | some (MappingRecord.Method _ _ _ _ _ lm) => lm
  | _ => none

/-! ## Helper lemmas -/

theorem breakAtFirst_eq_append {sep : Char} {s p q : List Char}
    (h : breakAtFirst sep s = some (p, q)) : s = p ++ sep :: q := by
  induction s generalizing p with
  | nil => simp [breakAtFirst] at h
  | cons c cs ih =>
    by_cases hc : c = sep
    · simp [breakAtFirst, hc] at h
      simp [hc, h.1.symm, h.2.symm]
    · simp only [breakAtFirst, if_neg hc, Option.map_eq_some'] at h
      obtain ⟨⟨p', q'⟩, hball, hpq⟩ := h
      obtain ⟨hp, hq⟩ := Prod.mk.injEq .. ▸ hpq
      subst hp
      subst hq
      simp [ih hball]

theorem breakAtFirst_eq_none {sep : Char} {s : List Char}
    (h : breakAtFirst sep s = none) : sep ∉ s := by
  induction s with
  | nil => simp
  | cons c cs ih =>
    by_cases hc : c = sep
    · simp [breakAtFirst, hc] at h
    · simp only [breakAtFirst, if_neg hc, Option.map_eq_none'] at h
      simp [ih h]
      exact fun hh => hc hh.symm

theorem splitnChar_ne_nil (n : Nat) (sep : Char) (s : List Char) :
    splitnChar (n + 1) sep s ≠ [] := by
  cases n with
  | zero => simp [splitnChar]
  | succ n =>
    show splitnChar (n + 2) sep s ≠ []
    unfold splitnChar
    cases breakAtFirst sep s <;> simp

theorem splitnChar_length_le (n : Nat) (sep : Char) :
    ∀ s : List Char, (splitnChar (n + 1) sep s).length ≤ n + 1 := by
  induction n with
  | zero => intro s; simp [splitnChar]
  | succ n ih =>
    intro s
    show (splitnChar (n + 2) sep s).length ≤ n + 2
    unfold splitnChar
    cases breakAtFirst sep s with
    | none => simp
    | some p => simpa using ih p.2

theorem mem_of_mem_splitnChar {sep c : Char} :
    ∀ {n : Nat} {s p : List Char}, p ∈ splitnChar n sep s → c ∈ p → c ∈ s := by
  intro n
  induction n with
  | zero => intro s p hp; simp [splitnChar] at hp
  | succ n ih =>
    intro s p hp hc
    cases n with
    | zero =>
      simp [splitnChar] at hp
      exact hp ▸ hc
    | succ n =>
      rw [show n + 1 + 1 = n + 2 from rfl] at hp
      unfold splitnChar at hp
      cases hb : breakAtFirst sep s with
      | none =>
        rw [hb] at hp
        simp at hp
        exact hp ▸ hc
      | some pp =>
        rw [hb] at hp
        have hs := breakAtFirst_eq_append hb
        simp at hp
        rcases hp with hp | hp
        · subst hp
          simp [hs, hc]
        · have := ih hp hc
          simp [hs, this]

theorem splitnChar_of_not_mem {sep : Char} {s : List Char} (h : sep ∉ s) :
    splitnChar 2 sep s = [s] := by
  unfold splitnChar
  cases hb : breakAtFirst sep s with
  | none => rfl
  | some p =>
    exfalso
    exact h (breakAtFirst_eq_append hb ▸ List.mem_append_right _ (List.mem_cons_self _ _))

theorem sliceSplit_ne_nil (sep : Char) (s : List Char) : sliceSplit sep s ≠ [] := by
  induction s with
  | nil => simp [sliceSplit]
  | cons c cs ih =>
    by_cases hc : c = sep
    · simp [sliceSplit, hc]
    · simp only [sliceSplit, if_neg hc]
      cases sliceSplit sep cs <;> simp

theorem sliceSplit_length (sep : Char) (s : List Char) :
    (sliceSplit sep s).length = s.count sep + 1 := by
  induction s with
  | nil => simp [sliceSplit]
  | cons c cs ih =>
    by_cases hc : c = sep
    · simp [sliceSplit, hc, List.count_cons, ih]
    · simp only [sliceSplit, if_neg hc]
      cases hs : sliceSplit sep cs with
      | nil => exact absurd hs (sliceSplit_ne_nil sep cs)
      | cons p ps =>
        have : cs.count sep + 1 = (p :: ps).length := by rw [← hs, ih]
        simp only [List.length_cons] at this ⊢
        rw [List.count_cons]
        simp [hc]
        omega

theorem sliceSplit_join (sep : Char) (s : List Char) :
    List.intercalate [sep] (sliceSplit sep s) = s := by
  induction s with
  | nil => simp [sliceSplit, List.intercalate]
  | cons c cs ih =>
    by_cases hc : c = sep
    · cases hs : sliceSplit sep cs with
      | nil => exact absurd hs (sliceSplit_ne_nil sep cs)
      | cons p ps =>
        rw [hs] at ih
        simp only [sliceSplit, if_pos hc, hs, List.intercalate, List.intersperse]
        simp only [List.intercalate] at ih
        simp [hc, ih]
    · cases hs : sliceSplit sep cs with
      | nil => exact absurd hs (sliceSplit_ne_nil sep cs)
      | cons p ps =>
        rw [hs] at ih
        simp only [sliceSplit, if_neg hc, hs]
        simp only [List.intercalate] at ih ⊢
        cases ps with
        | nil => simp at ih ⊢; simp [ih]
        | cons q qs =>
          simp only [List.intersperse] at ih ⊢
          simp at ih ⊢
          simp [ih]

theorem mem_insertByKey {key : α → Nat} {x a : α} {l : List α} :
    a ∈ insertByKey key x l ↔ a = x ∨ a ∈ l := by
  induction l with
  | nil => simp [insertByKey]
  | cons y ys ih =>
    by_cases h : key x ≤ key y
    · simp [insertByKey, h]
    · simp [insertByKey, h, ih]
      tauto

theorem insertByKey_pairwise {key : α → Nat} {x : α} {l : List α}
    (h : l.Pairwise (fun a b => key a ≤ key b)) :
    (insertByKey key x l).Pairwise (fun a b => key a ≤ key b) := by
  induction l with
  | nil => simp [insertByKey]
  | cons y ys ih =>
    rw [List.pairwise_cons] at h
    by_cases hxy : key x ≤ key y
    · rw [insertByKey, if_pos hxy, List.pairwise_cons]
      refine ⟨?_, List.pairwise_cons.mpr h⟩
      intro b hb
      rcases List.mem_cons.mp hb with hb | hb
      · exact hb ▸ hxy
      · exact le_trans hxy (h.1 b hb)
    · rw [insertByKey, if_neg hxy, List.pairwise_cons]
      refine ⟨?_, ih h.2⟩
      intro b hb
      rcases mem_insertByKey.mp hb with hb | hb
      · exact hb ▸ le_of_lt (Nat.lt_of_not_le hxy)
      · exact h.1 b hb

theorem sortByKey_pairwise (key : α → Nat) (l : List α) :
    (sortByKey key l).Pairwise (fun a b => key a ≤ key b) := by
  induction l with
  | nil => simp [sortByKey]
  | cons x xs ih => exact insertByKey_pairwise ih

theorem insertByKey_perm (key : α → Nat) (x : α) (l : List α) :
    List.Perm (insertByKey key x l) (x :: l) := by
  induction l with
  | nil => simp [insertByKey]
  | cons y ys ih =>
    by_cases h : key x ≤ key y
    · simp [insertByKey, h]
    · rw [insertByKey, if_neg h]
      exact (ih.cons y).trans (List.Perm.swap x y ys)

theorem sortByKey_perm (key : α → Nat) (l : List α) :
    List.Perm (sortByKey key l) l := by
  induction l with
  | nil => simp [sortByKey]
  | cons x xs ih => exact (insertByKey_perm key x (sortByKey key xs)).trans (ih.cons x)

theorem filter_insertByKey (key : α → Nat) (x : α) (l : List α) (k : Nat) :
    (insertByKey key x l).filter (fun y => key y == k) =
      if key x = k then x :: l.filter (fun y => key y == k)
      else l.filter (fun y => key y == k) := by
  induction l with
  | nil =>
    by_cases hx : key x = k <;>
      simp [insertByKey, List.filter_cons, beq_iff_eq, hx]
  | cons y ys ih =>
    by_cases h : key x ≤ key y
    · rw [insertByKey, if_pos h]
      by_cases hx : key x = k <;> simp [List.filter_cons, hx]
    · rw [insertByKey, if_neg h]
      have hlt : key y < key x := Nat.lt_of_not_le h
      by_cases hx : key x = k
      · have hy : ¬ (key y = k) := by omega
        simp [List.filter_cons, hx, hy, ih]
      · by_cases hy : key y = k <;> simp [List.filter_cons, hx, hy, ih]

theorem sortByKey_filter (key : α → Nat) (l : List α) (k : Nat) :
    (sortByKey key l).filter (fun y => key y == k) =
      l.filter (fun y => key y == k) := by
  induction l with
  | nil => simp [sortByKey]
  | cons x xs ih =>
    rw [sortByKey, filter_insertByKey]
    by_cases hx : key x = k <;> simp [List.filter_cons, hx, ih]

/-! ## Claim theorems -/

/-- C1: the claim says the record stream always terminates and that the
empty-line-skipping loop always makes progress.  The code refutes this: on
the buffer `"a\nb"` the first `next` yields the line `"a"` and leaves the
slice at `"\nb"` (the terminator is NOT consumed, since `split` returns
`&slice[i..]`), and from that state the loop never exits for any amount of
fuel — each iteration re-splits the same slice into an empty line and an
unchanged rest. -/
theorem record_stream_no_progress :
    iterNext 1 ([97, 10, 98] : List UInt8) =
      some (some (Except.error [97]), [10, 98])
    ∧ ∀ fuel : Nat, iterNext fuel ([10, 98] : List UInt8) = none := by
  refine ⟨rfl, ?_⟩
  intro fuel
  induction fuel with
  | zero => rfl
  | succ n ih => exact ih

/-- C2: the claim says a final line not followed by a terminator is still
yielded.  The code refutes this: on the buffer `"abc"` the split yields
`("abc", [])` and the `rest.is_empty` early return fires BEFORE the
non-empty line is yielded, so the stream ends without producing an item for
`"abc"`. -/
theorem record_stream_drops_last (fuel : Nat) :
    iterNext (fuel + 1) ([97, 98, 99] : List UInt8) =
      some (none, ([] : List UInt8)) := rfl

/-- C10: `MappingRecord::try_parse` is total — it yields `some` or `none`
for every byte sequence, and in particular `none` (never a panic or a
partial record) whenever the bytes are not valid UTF-8. -/
theorem try_parse_total (bs : List UInt8) :
    (utf8Decode? bs = none → try_parse bs = none) ∧
    (try_parse bs = none ∨ ∃ r, try_parse bs = some r) := by
  constructor
  · intro h
    simp [try_parse, h]
  · cases h : try_parse bs with
    | none => exact Or.inl rfl
    | some r => exact Or.inr ⟨r, rfl⟩

/-- Witness for C10 at the invalid UTF-8 input `[0xFF]`. -/
theorem try_parse_total_witness :
    utf8Decode? ([0xFF] : List UInt8) = none ∧
      try_parse ([0xFF] : List UInt8) = none :=
  ⟨by decide, (try_parse_total [0xFF]).1 (by decide)⟩

/-- C9 counterexample: the claim says a resolved method with empty raw
arguments yields ZERO terms.  For the no-argument method line
`"    void f() -> a"` the lookup engine's args vector is `[""]` — one empty
term — because Rust's slice `split` on an empty slice yields a single empty
piece. -/
theorem args_empty_counterexample :
    methodInfoOfLine ("    void f() -> a".toList) =
      some ⟨("a".toList), ("void".toList), [[]], ("f".toList), none⟩ := by
  decide

/-- C9 (amended): the lookup-mode argument list is the raw arguments text
slice-split on commas: the number of terms is always (number of commas)+1,
joining the terms back with commas recovers the raw text, and the EMPTY
arguments text yields exactly one empty term, not zero. -/
theorem args_split_semantics (c : MethodCaps) :
    (mkMethodInfo c).args = sliceSplit ',' c.argsRaw ∧
    ((mkMethodInfo c).args).length = c.argsRaw.count ',' + 1 ∧
    List.intercalate [','] ((mkMethodInfo c).args) = c.argsRaw ∧
    (c.argsRaw = [] → (mkMethodInfo c).args = [[]]) := by
  refine ⟨rfl, ?_, ?_, ?_⟩
  · simpa [mkMethodInfo] using sliceSplit_length ',' c.argsRaw
  · simpa [mkMethodInfo] using sliceSplit_join ',' c.argsRaw
  · intro h
    simp [mkMethodInfo, h, sliceSplit]

/-- Witness for C9's amended theorem at a concrete no-argument method. -/
theorem args_split_semantics_witness :
    (mkMethodInfo ⟨none, none, ("void".toList), ("f".toList), [],
        ("a".toList)⟩).args = [[]] :=
  (args_split_semantics _).2.2.2 rfl

theorem aliasCandidates_range_pos {body : List (List Char)} {a : List Char}
    {m : MethodInfo} (hm : m ∈ aliasCandidates body a) :
    ∀ f t, m.lineno_range = some (f, t) → 0 < f ∧ 0 < t := by
  intro f t hft
  simp only [aliasCandidates, List.mem_filter, List.mem_filterMap] at hm
  obtain ⟨⟨l, _, hinfo⟩, _⟩ := hm
  simp only [methodInfoOfLine, Option.map_eq_some'] at hinfo
  obtain ⟨c, _, hc⟩ := hinfo
  subst hc
  simp only [mkMethodInfo] at hft
  split at hft
  · rename_i hcond
    obtain ⟨h1, h2⟩ := Option.some.injEq .. ▸ hft
    simp only [Option.some.injEq, Prod.mk.injEq] at hft
    omega
  · exact absurd hft (by simp)

theorem matches_line_iff (m : MethodInfo) (lineno : Option Nat)
    (hr : ∀ f t, m.lineno_range = some (f, t) → 0 < t) :
    matches_line m lineno = true ↔
      (lineno = none ∨ lineno = some 0 ∨ m.lineno_range = none ∨
        ∃ f t n, m.lineno_range = some (f, t) ∧ lineno = some n ∧
          f ≤ n ∧ n ≤ t) := by
  cases hm : m.lineno_range with
  | none => simp [matches_line, hm]
  | some p =>
    obtain ⟨f, t⟩ := p
    have ht : 0 < t := hr f t hm
    cases lineno with
    | none => simp [matches_line, hm]
    | some n =>
      rw [matches_line]
      simp only [hm, Option.getD_some, Bool.or_eq_true, beq_iff_eq,
        Bool.and_eq_true, decide_eq_true_eq]
      constructor
      · rintro ((h | ⟨h1, h2⟩) | h)
        · exact Or.inr (Or.inl (by rw [h]))
        · exact Or.inr (Or.inr (Or.inr ⟨f, t, n, rfl, rfl, h1, h2⟩))
        · exact absurd h (by omega)
      · rintro (h | h | h | ⟨f1, t1, n1, hft, hn, h1, h2⟩)
        · exact absurd h (by simp)
        · exact Or.inl (Or.inl (Option.some.inj h))
        · exact absurd h (by simp)
        · cases hft
          cases hn
          exact Or.inl (Or.inr ⟨h1, h2⟩)

/-- C5 (amended): a candidate with the queried alias appears in
`get_methods` iff the queried line is absent, OR the queried line is `0`
(an explicit `0` is treated by `matches_line` exactly like an absent line,
so such a candidate is KEPT even when its range excludes 0), OR the
candidate has no line range, OR the queried line falls inside
`[startline, endline]` inclusive. -/
theorem get_methods_keep_iff (cls : ClassView) (a : List Char)
    (lineno : Option Nat) (m : MethodInfo) :
    m ∈ get_methods cls a lineno ↔
      (m ∈ aliasCandidates cls.buf a ∧
        (lineno = none ∨ lineno = some 0 ∨ m.lineno_range = none ∨
          ∃ f t n, m.lineno_range = some (f, t) ∧ lineno = some n ∧
            f ≤ n ∧ n ≤ t)) := by
  rw [get_methods,
    (sortByKey_perm (fun m => line_diff m lineno)
      (keptMethods cls.buf a lineno)).mem_iff,
    keptMethods, List.mem_filter, and_congr_right_iff]
  intro hmem
  exact matches_line_iff m lineno
    (fun f t h => (aliasCandidates_range_pos hmem f t h).2)

/-- C5 counterexample: the claim says a candidate whose range excludes the
queried line is dropped for EVERY queried line value, including 0.  For the
method line `"    1:5:void f() -> a"` (range `[1, 5]`) and queried line `0`,
the candidate is kept: `get_methods` returns it. -/
theorem get_methods_keeps_line_zero :
    get_methods ⟨("a".toList), ("C".toList),
        [("    1:5:void f() -> a".toList)]⟩ ("a".toList) (some 0) =
      [⟨("a".toList), ("void".toList), [[]], ("f".toList), some (1, 5)⟩] := by
  decide

/-- C6: `get_methods` orders its result by ascending `line_diff`, which is
the absolute difference between the queried line (`0` when absent) and the
candidate's range START — `first_line` and `last_line` both read the start
field, so the start is used for both endpoints of the distance — and
candidates with equal distance keep their relative document order (the
sort is stable: filtering the output at any fixed distance gives exactly
the document-ordered kept candidates at that distance). -/
theorem get_methods_ranking (cls : ClassView) (a : List Char)
    (lineno : Option Nat) :
    (get_methods cls a lineno).Pairwise
        (fun m1 m2 => line_diff m1 lineno ≤ line_diff m2 lineno)
    ∧ (∀ m : MethodInfo,
        line_diff m lineno =
          ((first_line m : Int) - ((lineno.getD 0 : Nat) : Int)).natAbs)
    ∧ (∀ k : Nat,
        (get_methods cls a lineno).filter
            (fun m => line_diff m lineno == k) =
          (keptMethods cls.buf a lineno).filter
            (fun m => line_diff m lineno == k))
    ∧ List.Perm (get_methods cls a lineno) (keptMethods cls.buf a lineno) := by
  refine ⟨sortByKey_pairwise _ _, ?_, ?_, sortByKey_perm _ _⟩
  · intro m
    simp [line_diff, last_line, first_line, min_self]
  · intro k
    exact sortByKey_filter (fun m => line_diff m lineno) _ k

theorem findClassL_first_match (a : List Char) :
    ∀ (ls : List (List Char)) (i : Nat) (h : i < ls.length),
      isClassAlias (ls.get ⟨i, h⟩) a = true →
      (∀ j (hj : j < i), isClassAlias (ls.get ⟨j, Nat.lt_trans hj h⟩) a = false) →
      ∃ cn, classCaps (ls.get ⟨i, h⟩) = some (cn, a) ∧
        findClassL ls a =
          some ⟨a, cn, (ls.drop (i + 1)).takeWhile (fun x => !isClassShaped x)⟩ := by
  intro ls
  induction ls with
  | nil =>
    intro i h
    exact absurd h (by simp)
  | cons l rest ih =>
    intro i h hc hmin
    cases i with
    | zero =>
      rw [show (l :: rest).get ⟨0, h⟩ = l from rfl] at hc ⊢
      rw [isClassAlias] at hc
      cases hcc : classCaps l with
      | none => rw [hcc] at hc; simp at hc
      | some p =>
        obtain ⟨cn, ob⟩ := p
        rw [hcc] at hc
        simp only [decide_eq_true_eq] at hc
        subst hc
        refine ⟨cn, rfl, ?_⟩
        simp [findClassL, hcc]
    | succ i1 =>
      have h0 : isClassAlias l a = false := by
        have := hmin 0 (Nat.succ_pos i1)
        simpa using this
      have hrest : i1 < rest.length := by simpa using h
      have hget : (l :: rest).get ⟨i1 + 1, h⟩ = rest.get ⟨i1, hrest⟩ := rfl
      rw [hget] at hc
      have hmin1 : ∀ j (hj : j < i1),
          isClassAlias (rest.get ⟨j, Nat.lt_trans hj hrest⟩) a = false := by
        intro j hj
        have := hmin (j + 1) (Nat.succ_lt_succ hj)
        simpa using this
      obtain ⟨cn, h1, h2⟩ := ih i1 hrest hc hmin1
      refine ⟨cn, by rw [hget, h1], ?_⟩
      have hstep : findClassL (l :: rest) a = findClassL rest a := by
        rw [findClassL]
        rw [isClassAlias] at h0
        cases hcc : classCaps l with
        | none => rfl
        | some p =>
          rw [hcc] at h0
          simp only [decide_eq_false_iff_not] at h0
          simp [h0]
      rw [hstep, h2]
      rfl

/-- C7: `find_class` returns the first class-declaration-shaped line in
document order whose obfuscated alias equals the query (with duplicate
aliases the first occurrence wins), and the returned body span consists of
the lines after that declaration up to — and not including — the next
class-declaration-shaped line (or document end); member-shaped lines never
terminate the span, since the span's end is computed with the same
class-line matcher. -/
theorem find_class_first_match (doc a : List Char) (i : Nat)
    (h : i < (toLines doc).length)
    (hc : isClassAlias ((toLines doc).get ⟨i, h⟩) a = true)
    (hmin : ∀ j (hj : j < i),
      isClassAlias ((toLines doc).get ⟨j, Nat.lt_trans hj h⟩) a = false) :
    ∃ cn, classCaps ((toLines doc).get ⟨i, h⟩) = some (cn, a) ∧
      find_class doc a =
        some ⟨a, cn,
          ((toLines doc).drop (i + 1)).takeWhile (fun x => !isClassShaped x)⟩ :=
  findClassL_first_match a (toLines doc) i h hc hmin

/-- Witness for C7: in a document with two class declarations sharing the
alias `a` and a member line between them, lookup returns the FIRST
declaration and its span is exactly the member line (ended by the second
class declaration). -/
theorem find_class_first_match_witness :
    ∃ cn,
      classCaps ((toLines ("x.A -> a:\n    int f -> g\ny.B -> a:".toList)).get
          ⟨0, by decide⟩) = some (cn, ("a".toList)) ∧
      find_class ("x.A -> a:\n    int f -> g\ny.B -> a:".toList) ("a".toList) =
        some ⟨("a".toList), cn,
          (((toLines ("x.A -> a:\n    int f -> g\ny.B -> a:".toList)).drop 1).takeWhile
            (fun x => !isClassShaped x))⟩ :=
  find_class_first_match ("x.A -> a:\n    int f -> g\ny.B -> a:".toList)
    ("a".toList) 0 (by decide) (by decide)
    (fun j hj => absurd hj (Nat.not_lt_zero j))

theorem splitnChar_two_single {sep : Char} {s x : List Char}
    (h : splitnChar 2 sep s = [x]) : x = s := by
  unfold splitnChar at h
  cases hb : breakAtFirst sep s with
  | none =>
    rw [hb] at h
    simp at h
    exact h.symm
  | some p =>
    rw [hb] at h
    simp [splitnChar] at h

theorem parse_mapping_class_branch {line : List Char}
    (h1 : line.head? ≠ some '#') (h2 : line.take 4 ≠ [' ', ' ', ' ', ' ']) :
    parse_mapping line = parseClass line := by
  rw [parse_mapping, if_neg h1, if_neg h2]

theorem parse_mapping_member_branch {line : List Char}
    (h2 : line.take 4 = [' ', ' ', ' ', ' ']) :
    parse_mapping line = parseMember (line.drop 4) := by
  have h1 : line.head? ≠ some '#' := by
    cases line with
    | nil => simp at h2
    | cons c cs =>
      simp only [List.take_succ_cons, List.cons.injEq] at h2
      simp [h2.1]
  rw [parse_mapping, if_neg h1, if_pos h2]


theorem parseClass_eq_some {line : List Char} {r : MappingRecord} :
    parseClass line = some r ↔
      ∃ o t3, splitnChar 3 ' ' line = [o, ['-', '>'], t3] ∧
        line.getLast? = some ':' ∧ r = MappingRecord.Class o t3.dropLast := by
  constructor
  · intro h
    unfold parseClass at h
    split at h
    · rename_i o arrow obf hs
      split at h
      · rename_i hcond
        exact ⟨o, obf, by rw [hs, hcond.1], hcond.2, (Option.some.inj h).symm⟩
      · exact absurd h (by simp)
    · exact absurd h (by simp)
  · rintro ⟨o, t3, hs, hlast, rfl⟩
    rw [parseClass, hs]
    simp [hlast]

theorem parseMember_eq_some {s : List Char} {r : MappingRecord}
    (h : parseMember s = some r) :
    ∃ pre s1, leadingLineRange s = some (pre, s1) ∧
      ∃ ty o0 ob, splitnChar 4 ' ' s1 = [ty, o0, ['-', '>'], ob] ∧
        ∃ o1 osl oel, trailingLines o0 = some (o1, osl, oel) ∧
          ((splitnChar 2 '(' o1 = [o1] ∧ r = MappingRecord.Field ty o1 ob) ∨
            (∃ o2 ap, splitnChar 2 '(' o1 = [o2, ap] ∧
              ap.getLast? = some ')' ∧
              r = MappingRecord.Method ty (rsplitOnce '.' o2).1 ob ap.dropLast
                (rsplitOnce '.' o2).2
                (if 0 < (pre.map Prod.fst).getD 0 then
                  some ⟨(pre.map Prod.fst).getD 0, (pre.map Prod.snd).getD 0,
                    osl, oel⟩
                else none))) := by
  unfold parseMember at h
  split at h
  · exact absurd h (by simp)
  · rename_i pre s1 hlead
    refine ⟨pre, s1, hlead, ?_⟩
    split at h
    · rename_i ty o0 arrow ob hs4
      split at h
      · rename_i harrow
        subst harrow
        refine ⟨ty, o0, ob, hs4, ?_⟩
        split at h
        · exact absurd h (by simp)
        · rename_i o1 osl oel htr
          refine ⟨o1, osl, oel, htr, ?_⟩
          split at h
          · rename_i o2 hsp
            have ho2 : o2 = o1 := splitnChar_two_single hsp
            subst ho2
            exact Or.inl ⟨hsp, (Option.some.inj h).symm⟩
          · rename_i o2 ap hsp
            split at h
            · rename_i hpar
              exact Or.inr ⟨o2, ap, hsp, hpar, (Option.some.inj h).symm⟩
            · exact absurd h (by simp)
          · exact absurd h (by simp)
      · exact absurd h (by simp)
    · exact absurd h (by simp)

theorem trailingLines_mem {o0 o1 : List Char} {osl oel : Option Nat}
    (h : trailingLines o0 = some (o1, osl, oel)) :
    o1 ∈ splitnChar 3 ':' o0 := by
  unfold trailingLines at h
  split at h
  · rename_i o hs
    rw [hs]
    obtain ⟨h1, _⟩ := Prod.mk.injEq .. ▸ Option.some.inj h
    simp [h1.symm]
  · rename_i o n1 hs
    split at h
    · rw [hs]
      obtain ⟨h1, _⟩ := Prod.mk.injEq .. ▸ Option.some.inj h
      simp [h1.symm]
    · exact absurd h (by simp)
  · rename_i o n1 n2 hs
    split at h
    · rw [hs]
      obtain ⟨h1, _⟩ := Prod.mk.injEq .. ▸ Option.some.inj h
      simp [h1.symm]
    · exact absurd h (by simp)
  · exact absurd h (by simp)

/-- C3 (amended): in the GRAMMAR-level parser, a parsed method's line
mapping is gated solely on the leading range's startline: with a parsed
leading prefix `S:E:` and `S > 0` the record carries
`line_mapping = some {startline := S, endline := E, ..}`, with `S = 0` or no
leading prefix it carries `none` (discarding any trailing suffix data).  In
the LOOKUP engine, however, `MethodInfo.lineno_range` is materialized iff
BOTH parsed endpoints are positive (`from_line > 0 && to_line > 0`), not
solely the start. -/
theorem line_mapping_gate :
    (∀ (line ty o obf args : List Char) (oc : Option (List Char))
        (lm : Option LineMapping) (pre : Option (Nat × Nat)) (rest : List Char),
      parse_mapping line = some (MappingRecord.Method ty o obf args oc lm) →
      leadingLineRange (line.drop 4) = some (pre, rest) →
      ((pre = none → lm = none) ∧
        ∀ S E, pre = some (S, E) →
          ((0 < S → ∃ os oe, lm = some ⟨S, E, os, oe⟩) ∧
            (S = 0 → lm = none))))
    ∧ ∀ c : MethodCaps,
        ((mkMethodInfo c).lineno_range = none ↔
          (parseU32orZero c.fromStr = 0 ∨ parseU32orZero c.toStr = 0)) ∧
        ∀ f t, (mkMethodInfo c).lineno_range = some (f, t) →
          f = parseU32orZero c.fromStr ∧ t = parseU32orZero c.toStr ∧
            0 < f ∧ 0 < t := by
  constructor
  · intro line ty o obf args oc lm pre rest hparse hlead
    by_cases h1 : line.head? = some '#'
    · exfalso
      rw [parse_mapping, if_pos h1] at hparse
      unfold parseHeader at hparse
      split at hparse <;> simp at hparse
    · by_cases h2 : line.take 4 = [' ', ' ', ' ', ' ']
      · rw [parse_mapping_member_branch h2] at hparse
        obtain ⟨pre1, s1, hlead1, ty1, o0, ob, hs4, o1, osl, oel, htr, hcase⟩ :=
          parseMember_eq_some hparse
        rw [hlead] at hlead1
        obtain ⟨hp, hs⟩ := Prod.mk.injEq .. ▸ Option.some.inj hlead1
        subst hp
        rcases hcase with ⟨_, hF⟩ | ⟨o2, ap, _, _, hM⟩
        · exact absurd hF (by simp)
        · rw [MappingRecord.Method.injEq] at hM
          obtain ⟨_, _, _, _, _, hlm⟩ := hM
          cases pre with
          | none =>
            refine ⟨fun _ => ?_, fun S E hSE => absurd hSE (by simp)⟩
            simpa using hlm
          | some p =>
            obtain ⟨S, E⟩ := p
            refine ⟨fun hn => absurd hn (by simp), ?_⟩
            intro S1 E1 hSE
            obtain ⟨hS, hE⟩ := Prod.mk.injEq .. ▸ Option.some.inj hSE
            subst hS
            subst hE
            simp only [Option.map_some', Option.getD_some] at hlm
            constructor
            · intro hpos
              rw [if_pos hpos] at hlm
              exact ⟨osl, oel, hlm⟩
            · intro hzero
              subst hzero
              rw [if_neg (by omega)] at hlm
              exact hlm
      · exfalso
        rw [parse_mapping_class_branch h1 h2] at hparse
        obtain ⟨o1, t3, _, _, hr⟩ := parseClass_eq_some.mp hparse
        simp at hr
  · intro c
    constructor
    · rw [mkMethodInfo]
      split
      · rename_i hcond
        simp only [reduceCtorEq, false_iff]
        omega
      · rename_i hcond
        simp only [true_iff]
        omega
    · intro f t hft
      rw [mkMethodInfo] at hft
      split at hft
      · rename_i hcond
        obtain ⟨hf, ht⟩ := Prod.mk.injEq .. ▸ Option.some.inj hft
        exact ⟨hf.symm, ht.symm, hf ▸ hcond.1, ht ▸ hcond.2⟩
      · exact absurd hft (by simp)

/-- Witness for C3's amended theorem: the grammar side at
`"    1:2:void f() -> a"` (leading range `1:2`, startline `1 > 0`, so the
line mapping is materialized with startline 1 and endline 2), and the
lookup side at capture groups `5`/`0` (startline positive but endline zero,
so no range is materialized). -/
theorem line_mapping_gate_witness :
    (∃ os oe, (some (LineMapping.mk 1 2 none none) : Option LineMapping) =
        some ⟨1, 2, os, oe⟩) ∧
    (mkMethodInfo ⟨some ("5".toList), some ("0".toList), ("void".toList),
        ("f".toList), [], ("a".toList)⟩).lineno_range = none :=
  ⟨((line_mapping_gate.1 ("    1:2:void f() -> a".toList) ("void".toList)
      ("f".toList) ("a".toList) [] none (some ⟨1, 2, none, none⟩)
      (some (1, 2)) ("void f() -> a".toList) (by decide) (by decide)).2 1 2
      rfl).1 (by decide),
   (line_mapping_gate.2 ⟨some ("5".toList), some ("0".toList),
      ("void".toList), ("f".toList), [], ("a".toList)⟩).1.mpr
      (Or.inr (by decide))⟩

/-- C3 counterexample: the claim says the lookup engine's gate is SOLELY
`startline > 0`.  On the method line `"    5:0:void f() -> a"` the grammar
parser does materialize `line_mapping = some {startline := 5, endline := 0}`
(start-only gate), but the lookup engine yields `lineno_range = none`
because its gate also requires `to_line > 0`. -/
theorem line_mapping_gate_counterexample :
    parse_mapping ("    5:0:void f() -> a".toList) =
      some (MappingRecord.Method ("void".toList) ("f".toList) ("a".toList) []
        none (some ⟨5, 0, none, none⟩)) ∧
    methodInfoOfLine ("    5:0:void f() -> a".toList) =
      some ⟨("a".toList), ("void".toList), [[]], ("f".toList), none⟩ :=
  ⟨by decide, by decide⟩

/-- C4: a 4-space-indented member line whose name token (the second
space-separated token, after the optional leading range) contains no `(`
classifies — when it classifies at all — as a Field record, never a
Method; the `Field` constructor carries no line-mapping component, so any
parsed leading `S:E:` prefix or trailing `:n[:n]` suffix data is
discarded. -/
theorem field_line_yields_field (line : List Char) (r : MappingRecord)
    (t : List Char)
    (hparse : parse_mapping line = some r)
    (hindent : line.take 4 = [' ', ' ', ' ', ' '])
    (hname : memberNameToken line = some t)
    (hnp : '(' ∉ t) :
    ∃ ty o ob, r = MappingRecord.Field ty o ob := by
  rw [parse_mapping_member_branch hindent] at hparse
  obtain ⟨pre, s1, hlead, ty, o0, ob, hs4, o1, osl, oel, htr, hcase⟩ :=
    parseMember_eq_some hparse
  have hname2 : memberNameToken line = some o0 := by
    simp [memberNameToken, hlead, hs4]
  rw [hname2] at hname
  obtain rfl : t = o0 := (Option.some.inj hname).symm
  have hsub : '(' ∉ o1 := fun hc =>
    hnp (mem_of_mem_splitnChar (trailingLines_mem htr) hc)
  rcases hcase with ⟨_, hF⟩ | ⟨o2, ap, hsp, _, _⟩
  · exact ⟨ty, o1, ob, hF⟩
  · exfalso
    rw [splitnChar_of_not_mem hsub] at hsp
    simp at hsp

/-- Witness for C4 at the field line `"    1:2:int name:3:4 -> a"`, which
carries both a leading range prefix and a trailing suffix. -/
theorem field_line_yields_field_witness :
    ∃ ty o ob,
      MappingRecord.Field ("int".toList) ("name".toList) ("a".toList) =
        MappingRecord.Field ty o ob :=
  field_line_yields_field ("    1:2:int name:3:4 -> a".toList)
    (MappingRecord.Field ("int".toList) ("name".toList) ("a".toList))
    ("name:3:4".toList) (by decide) (by decide) (by decide) (by decide)

/-- C8 (amended): a non-header, non-indented line classifies as a class
record iff splitting on spaces into at most 3 tokens gives exactly three
tokens with the second exactly `->` and the line's last character `:`; the
obfuscated alias is the third token minus that final `:`.  The code
performs NO non-emptiness checks: the first token may be empty and the
third token may be just `:` (yielding an empty alias). -/
theorem class_line_classification (line : List Char) (r : MappingRecord)
    (h1 : line.head? ≠ some '#') (h2 : line.take 4 ≠ [' ', ' ', ' ', ' ']) :
    parse_mapping line = some r ↔
      ∃ o t3, splitnChar 3 ' ' line = [o, ['-', '>'], t3] ∧
        line.getLast? = some ':' ∧ r = MappingRecord.Class o t3.dropLast := by
  rw [parse_mapping_class_branch h1 h2]
  exact parseClass_eq_some

/-- Witness for C8's amended theorem at a well-formed class line. -/
theorem class_line_classification_witness :
    parse_mapping ("x.A -> b:".toList) =
      some (MappingRecord.Class ("x.A".toList) ("b".toList)) :=
  (class_line_classification ("x.A -> b:".toList)
      (MappingRecord.Class ("x.A".toList) ("b".toList)) (by decide)
      (by decide)).mpr
    ⟨("x.A".toList), ("b:".toList), by decide, by decide, by decide⟩

/-- C8 counterexample: the claim says a line whose third token is just `:`
is Unparsable.  The code accepts `"a -> :"` as a class record with an EMPTY
obfuscated alias (and likewise performs no non-emptiness check on the first
token). -/
theorem class_line_empty_obfuscated :
    parse_mapping ("a -> :".toList) =
      some (MappingRecord.Class ("a".toList) []) := by
  decide
